import Mathlib

/-!
Verification of `luigi_pipeline.py`: a four-stage luigi data pipeline
(DownloadData → ExtractFiles → DataPreprocessing → DelTempFiles, wrapped by
CreateDataSet).  The development embeds the two non-trivial pieces of the
program — the sectioned-table splitter `ExtractFiles.separate_tables` and the
column-dropping preprocessing step — as executable Lean functions over lists
of lines, plus a model of the stage/cache/executor layer over an abstract
filesystem.
-/

namespace LuigiPipeline

/-! ## String helpers

The Python source works on the lines returned by `f.readlines()`.  We model a
text as a `List String` of lines *without* their trailing newline characters;
this is faithful because every Python-side use of a line either tests its
first character, strips the newline together with brackets, or feeds the line
(with newline) into a line-oriented CSV reader.
-/

/-- First character is `'['`: the model of Python `l.startswith("[")`. -/
def startsLb (l : String) : Bool :=
  match l.data with
  | []     => false
  | c :: _ => decide (c = '[')

/-- Characters stripped by Python `l.strip("[]\n")`; the newline is already
absent from our newline-free lines, so only the brackets remain. -/
def isBrk (c : Char) : Bool :=
  decide (c = '[') || decide (c = ']')

/-- Model of Python `l.strip("[]\n")` on a newline-free line: remove bracket
characters from both ends. -/
def stripBrk (s : String) : String :=
  String.mk (((s.data.dropWhile isBrk).reverse.dropWhile isBrk).reverse)

/-- Split a line at tab characters, the column delimiter used throughout
(`sep="\t"`). -/
def splitTabAux : List Char → List Char → List String
  | [], acc => [String.mk acc.reverse]
  | c :: cs, acc =>
    if c = '\t' then String.mk acc.reverse :: splitTabAux cs []
    else splitTabAux cs (c :: acc)

def splitTab (s : String) : List String :=
  splitTabAux s.data []

/-! ## The pandas fragment used by the splitter

`separate_tables` hands each buffered section to
`pd.read_csv(fio, sep="\t", header=header)` with `header` either `"infer"`
(first non-blank line becomes the column names) or `None` (positional,
headerless).  We model a parsed dataframe structurally: an optional header
row of column names plus the data rows, all values kept as raw strings
(pandas' numeric dtype inference is irrelevant to the claims).  Faithful to
pandas, blank lines are skipped (`skip_blank_lines=True` default) and a
buffer with no parseable line raises `EmptyDataError`, modelled as `.error`.
-/

/-- Header mode of `pd.read_csv`: `"infer"` or `None`. -/
inductive HMode where
  | infer
  | pos
  deriving DecidableEq, Repr

/-- A parsed table: optional column-name row, then data rows (raw strings). -/
structure DF where
  header : Option (List String)
  rows : List (List String)
  deriving DecidableEq, Repr

/-- Model of `pd.read_csv(buffer, sep="\t", header=h)` on the buffered lines:
`EmptyDataError` when no non-blank line exists, otherwise split every
non-blank line at tabs, consuming the first one as column names in `infer`
mode. -/
def read_csv (lines : List String) (h : HMode) : Except Unit DF :=
  match lines.filter (fun l => !l.isEmpty) with
  | [] => Except.error ()
  | first :: rest =>
    match h with
    | HMode.infer => Except.ok ⟨some (splitTab first), rest.map splitTab⟩
    | HMode.pos   => Except.ok ⟨none, (first :: rest).map splitTab⟩

/-! ## The splitter state machine (`ExtractFiles.separate_tables`)

The Python dict `dfs` is modelled as an insertion-ordered association list;
its keys have type `Option String` because the final, unconditional flush
`dfs[write_key] = pd.read_csv(fio, sep="\t")` can execute while `write_key`
is still `None`.
-/

abbrev Tables := List (Option String × DF)

/-- Python `dfs[k] = v`: replace in place when the key is present, else
append, preserving insertion order. -/
def dictInsert : Tables → Option String → DF → Tables
  | [], k, v => [(k, v)]
  | (k', v') :: rest, k, v =>
    if k' = k then (k, v) :: rest else (k', v') :: dictInsert rest k v

/-- Python truthiness of `write_key`: `None` and the empty string are falsy. -/
def truthy : Option String → Bool
  | none => false
  | some s => !s.isEmpty

/-- The loop state of `separate_tables`: accumulated tables, current
`write_key`, and the buffered lines of the current section (`fio`). -/
structure SplitSt where
  dfs : Tables
  wk : Option String
  buf : List String
  deriving DecidableEq, Repr

def headingLbl : String := "Heading"

/-- One iteration of the `for l in f.readlines()` loop of
`separate_tables` (src/luigi_pipeline.py lines 117–127). -/
def step (st : SplitSt) (l : String) : Except Unit SplitSt :=
  if startsLb l then
    if truthy st.wk then
      match read_csv st.buf (if st.wk = some headingLbl then HMode.pos else HMode.infer) with
      | Except.error e => Except.error e
      | Except.ok df => Except.ok ⟨dictInsert st.dfs st.wk df, some (stripBrk l), []⟩
    else
      Except.ok ⟨st.dfs, some (stripBrk l), []⟩
  else if truthy st.wk then
    Except.ok ⟨st.dfs, st.wk, st.buf ++ [l]⟩
  else
    Except.ok st

/-- Run the loop over all lines, propagating a pandas error. -/
def runLines : SplitSt → List String → Except Unit SplitSt
  | st, [] => Except.ok st
  | st, l :: ls =>
    match step st l with
    | Except.error e => Except.error e
    | Except.ok st' => runLines st' ls

/-- Model of `ExtractFiles.separate_tables` (src/luigi_pipeline.py lines
112–129) up to the point where the `dfs` mapping is complete: run the state
machine over the lines, then perform the final unconditional flush
`dfs[write_key] = pd.read_csv(fio, sep="\t")` — note that this last call
passes *no* `header` argument, so it always uses header inference, and it is
not guarded by `if write_key`. -/
def separate_tables (lines : List String) : Except Unit Tables :=
  match runLines ⟨[], none, []⟩ lines with
  | Except.error e => Except.error e
  | Except.ok st =>
    match read_csv st.buf HMode.infer with
    | Except.error e => Except.error e
    | Except.ok df => Except.ok (dictInsert st.dfs st.wk df)

/-! ## Column projector (`DataPreprocessing.run`)

`DataPreprocessing.run` loads each matched file with
`pd.read_csv(fl, sep="\t")` and applies
`df.drop(columns=list(self.cols_fordrop), errors="ignore")`
(src/luigi_pipeline.py lines 178–183).  We model the drop on `DF`: remove
every column whose name is in the drop list, positionally removing the
corresponding cell of each row; unknown names are ignored (`errors="ignore"`).
A dataframe loaded without a header (`header = none`) has integer column
labels, so dropping string column names leaves it unchanged.
-/

/-- Keep a column: its name is not in the drop list. -/
def keepCol (cols : List String) (h : String) : Bool :=
  decide (h ∉ cols)

/-- Remove from one row the cells whose column name is dropped. -/
def dropRow (cols : List String) (hs row : List String) : List String :=
  ((hs.zip row).filter (fun q => keepCol cols q.1)).map Prod.snd

/-- Model of `df.drop(columns=cols, errors="ignore")`. -/
def dropColumns (df : DF) (cols : List String) : DF :=
  match df.header with
  | none => df
  | some hs => ⟨some (hs.filter (keepCol cols)), df.rows.map (dropRow cols hs)⟩

/-! ## Filesystem, stages, cache and executor

The stage/cache/executor layer of the program is the luigi framework, which
is not part of src/.  Modelled from the spec: an **Artifact** is a filesystem
path with a validity predicate — "exists" for plain files, "exists and
non-empty" for sentinel/marker files (§3, §4.2); a stage is **complete** when
all its declared outputs are valid, a complete stage is skipped *together
with its prerequisites* (§5 "every stage's cache check short-circuits",
§7 "re-running … resumes from the failed stage rather than restarting from
scratch"); an incomplete stage first executes its prerequisite chain, then
its own run action, and a failing run action stops the whole run immediately
(§4.1 step 3).

The filesystem is a list of file entries; directories are implicit.  A path
is split into the directory components, the stem and the extension, matching
the program's uses of `os.path.splitext` and `Path.rglob`.  File contents are
abstracted to a size in bytes, with the program's own writes modelled as
size 1 (all its written contents are non-empty; only emptiness vs
non-emptiness is ever observed).
-/

structure Entry where
  dirs : List String
  stem : String
  ext : String
  size : Nat
  deriving DecidableEq, Repr

abbrev FS := List Entry

def samePath (e : Entry) (d : List String) (st ex : String) : Bool :=
  decide (e.dirs = d ∧ e.stem = st ∧ e.ext = ex)

/-- Size of the file at a path, `none` when absent. -/
def lookupFile (fs : FS) (d : List String) (st ex : String) : Option Nat :=
  (fs.find? (fun e => samePath e d st ex)).map Entry.size

/-- Write a file: the new content replaces any file at the same path. -/
def writeFile (fs : FS) (e : Entry) : FS :=
  e :: fs.filter (fun x => !samePath x e.dirs e.stem e.ext)

/-- `os.remove` preceded by the `os.path.exists` guard: drop the path. -/
def removeFile (fs : FS) (d : List String) (st ex : String) : FS :=
  fs.filter (fun e => !samePath e d st ex)

/-- A file entry lies under the dataset directory `{dest}/{name}` —
the model of being matched by `Path(ds_dir).rglob(...)`. -/
def underDs (dest name : String) (e : Entry) : Bool :=
  decide (e.dirs.take 2 = [dest, name])

def extTxt : String := ".txt"
def extTar : String := ".tar"
def extractsStem : String := "extracts"
def doneStem : String := "done"
def prepSuffix : String := "_preprocessed"

/-- Model of `DelTempFiles.run` (src/luigi_pipeline.py lines 222–240):
remove `{dest}/{name}.tar` if present, remove every `*.txt` found by
`rglob` under the dataset directory, then write the `done.txt` completion
log (its content is the non-empty deleted-files report, size abstracted
to 1). -/
def delRun (dest name : String) (fs : FS) : FS :=
  let fs1 := removeFile fs [dest] name extTar
  let fs2 := fs1.filter (fun e => !(underDs dest name e && decide (e.ext = extTxt)))
  writeFile fs2 ⟨[dest, name], doneStem, extTxt, 1⟩

/-- Validity of the Extract sentinel `{dest}/{name}/extracts.txt`
(`ExtractFiles.output`, lines 73–76).  Modelled from the spec: a marker file
is valid when it exists with non-zero size (§3, §4.2). -/
def extractsValid (dest name : String) (fs : FS) : Bool :=
  match lookupFile fs [dest, name] extractsStem extTxt with
  | some sz => decide (0 < sz)
  | none => false

/-- Validity of the Cleanup completion log `{dest}/{name}/done.txt`
(`DelTempFiles.output`, lines 216–220), a marker file. -/
def doneValid (dest name : String) (fs : FS) : Bool :=
  match lookupFile fs [dest, name] doneStem extTxt with
  | some sz => decide (0 < sz)
  | none => false

/-- Validity of the downloaded archive `{dest}/{name}.tar`
(`DownloadData.output`, lines 33–38): a plain file, valid when it exists. -/
def tarValid (dest name : String) (fs : FS) : Bool :=
  (lookupFile fs [dest] name extTar).isSome

/-- The files matched by `DataPreprocessing`'s patterns: `rglob(pattern)`
under the dataset directory, with each pattern an exact
`stem.ext` file name as in the default `["Probes.tsv"]`. -/
def prepMatches (dest name : String) (pats : List (String × String)) (fs : FS) : FS :=
  pats.foldr (fun pat acc =>
    fs.filter (fun e =>
      underDs dest name e && decide (e.stem = pat.1 ∧ e.ext = pat.2)) ++ acc) []

/-- `DataPreprocessing.output` (lines 156–166): one `{stem}_preprocessed{ext}`
sibling target per matched file; the stage is complete when all of them
exist. -/
def prepValid (dest name : String) (pats : List (String × String)) (fs : FS) : Bool :=
  (prepMatches dest name pats fs).all (fun e =>
    (lookupFile fs e.dirs (e.stem ++ prepSuffix) e.ext).isSome)

/-- Model of `DataPreprocessing.run` (lines 168–183): write each
`_preprocessed` sibling (content: the loaded table with the configured
columns dropped; abstracted to size 1). -/
def prepRun (dest name : String) (pats : List (String × String)) (fs : FS) : FS :=
  (prepMatches dest name pats fs).foldl
    (fun acc e => writeFile acc ⟨e.dirs, e.stem ++ prepSuffix, e.ext, 1⟩) fs

/-- Model of `DownloadData.run` (lines 40–55) in the success case: write the
archive file. -/
def downloadRun (dest name : String) (fs : FS) : FS :=
  writeFile fs ⟨[dest], name, extTar, 1⟩

/-- Model of `ExtractFiles.run` (lines 78–109): the table files produced from
the archive members depend on the archive's content, which is external to
the model, so they are abstracted as the parameter `extracted`; afterwards
the non-empty sentinel is written. -/
def extractRun (dest name : String) (extracted : FS) (fs : FS) : FS :=
  writeFile (extracted.foldl writeFile fs) ⟨[dest, name], extractsStem, extTxt, 1⟩

/-- A pipeline stage: its name, its completeness check against the
filesystem, and its run action, which returns the new filesystem and a
success flag. -/
structure Stage where
  name : String
  complete : FS → Bool
  run : FS → FS × Bool

/-- The linear requirement chain of the program, root first:
`CreateDataSet → DelTempFiles → DataPreprocessing → ExtractFiles →
DownloadData`.  `CreateDataSet` is a `WrapperTask`: it runs nothing and is
complete exactly when its sole requirement is. -/
def nmWrapper : String := "CreateDataSet"
def nmDel : String := "DelTempFiles"
def nmPrep : String := "DataPreprocessing"
def nmExtract : String := "ExtractFiles"
def nmDownload : String := "DownloadData"

def pipelineChain (dest name : String) (pats : List (String × String))
    (extracted : FS) : List Stage :=
  [ ⟨nmWrapper, fun fs => doneValid dest name fs, fun fs => (fs, true)⟩,
    ⟨nmDel, fun fs => doneValid dest name fs,
      fun fs => (delRun dest name fs, true)⟩,
    ⟨nmPrep, fun fs => prepValid dest name pats fs,
      fun fs => (prepRun dest name pats fs, true)⟩,
    ⟨nmExtract, fun fs => extractsValid dest name fs,
      fun fs => (extractRun dest name extracted fs, true)⟩,
    ⟨nmDownload, fun fs => tarValid dest name fs,
      fun fs => (downloadRun dest name fs, true)⟩ ]

/-- Scheduling pass of the executor over a requirement chain given root
first: a task found complete is skipped and its prerequisites are not even
examined; an incomplete task is scheduled after its prerequisite chain.
Returns the stages to run, in execution order. -/
def toSchedule (fs : FS) : List Stage → List Stage
  | [] => []
  | s :: deps => if s.complete fs then [] else toSchedule fs deps ++ [s]

/-- Result of a run: final filesystem, names of the stages whose run action
was invoked (in order), and the failed stage's name, if any. -/
structure RunResult where
  fs : FS
  ran : List String
  failed : Option String
  deriving Repr

/-- Execute scheduled stages in order, stopping at the first failure. -/
def execStages (fs : FS) : List Stage → RunResult
  | [] => ⟨fs, [], none⟩
  | s :: rest =>
    match s.run fs with
    | (fs', true) =>
      let r := execStages fs' rest
      ⟨r.fs, s.name :: r.ran, r.failed⟩
    | (fs', false) => ⟨fs', [s.name], some s.name⟩

/-- One invocation of the executor on a requirement chain (root first):
schedule, then execute. -/
def luigiRun (fs : FS) (chain : List Stage) : RunResult :=
  execStages fs (toSchedule fs chain)

/-! ## Basic lemmas about the splitter state machine -/

theorem runLines_append (xs ys : List String) :
    ∀ st : SplitSt, runLines st (xs ++ ys) =
      match runLines st xs with
      | Except.error e => Except.error e
      | Except.ok st' => runLines st' ys := by
  induction xs with
  | nil => intro st; rfl
  | cons l ls ih =>
    intro st
    cases h : step st l with
    | error e => simp [runLines, h]
    | ok st' => simp [runLines, h, ih st']

/-- Lines seen while `write_key` is still `None` leave the state unchanged:
the pre-label preamble is discarded. -/
theorem runLines_preamble (pre : List String)
    (hpre : ∀ l ∈ pre, startsLb l = false) (d : Tables) (buf : List String) :
    runLines ⟨d, none, buf⟩ pre = Except.ok ⟨d, none, buf⟩ := by
  induction pre with
  | nil => rfl
  | cons l ls ih =>
    have hl : startsLb l = false := hpre l (List.mem_cons_self l ls)
    show (match step ⟨d, none, buf⟩ l with
          | Except.error e => Except.error e
          | Except.ok st' => runLines st' ls) = _
    have hstep : step ⟨d, none, buf⟩ l = Except.ok ⟨d, none, buf⟩ := by
      simp [step, hl, truthy]
    rw [hstep]
    exact ih fun x hx => hpre x (List.mem_cons_of_mem l hx)

/-- A buffer holding at least one non-blank line parses successfully under
either header mode (no `EmptyDataError`). -/
theorem read_csv_ok (buf : List String) (h : ∃ l ∈ buf, !l.isEmpty)
    (m : HMode) : ∃ df, read_csv buf m = Except.ok df := by
  obtain ⟨l, hl, hne⟩ := h
  unfold read_csv
  cases hfil : buf.filter (fun l => !l.isEmpty) with
  | nil =>
    exfalso
    have := List.filter_eq_nil_iff.mp hfil l hl
    simp [hne] at this
  | cons a as => cases m <;> exact ⟨_, rfl⟩

/-- Inserting a fresh key appends it to the insertion order. -/
theorem dictInsert_map_fst (m : Tables) (k : Option String) (v : DF)
    (hk : k ∉ m.map Prod.fst) :
    (dictInsert m k v).map Prod.fst = m.map Prod.fst ++ [k] := by
  induction m with
  | nil => rfl
  | cons p rest ih =>
    have h1 : ¬p.1 = k := by
      intro h; exact hk (by simp [h])
    have h2 : k ∉ rest.map Prod.fst := fun h => hk (by simp [h])
    simp [dictInsert, h1, ih h2]

/-- Appending content lines while a non-empty `write_key` is active buffers
them in order. -/
theorem runLines_content (c : List String) (hc : ∀ l ∈ c, startsLb l = false)
    (d : Tables) (k : String) (hk : k ≠ "") :
    ∀ buf, runLines ⟨d, some k, buf⟩ c = Except.ok ⟨d, some k, buf ++ c⟩ := by
  induction c with
  | nil => intro buf; simp [runLines]
  | cons l ls ih =>
    intro buf
    have hl : startsLb l = false := hc l (List.mem_cons_self l ls)
    have hke : k.isEmpty = false := by
      cases hie : k.isEmpty
      · rfl
      · exact absurd ((String.isEmpty_iff k).mp hie) hk
    have hstep : step ⟨d, some k, buf⟩ l = Except.ok ⟨d, some k, buf ++ [l]⟩ := by
      simp [step, hl, truthy, hke]
    have hrest := ih (fun x hx => hc x (List.mem_cons_of_mem l hx)) (buf ++ [l])
    simp only [runLines, hstep]
    rw [hrest]
    simp

/-! ## Claims C1, C5, C10 — the splitter -/

/-- C1: the claim says a section labeled `Heading` is parsed headerless and
every other section consumes its first buffered line as header, *identically
for the final section*.  The code violates the final-section half: the
end-of-input flush calls `pd.read_csv(fio, sep="\t")` without the `header`
argument (line 129), so a *last* section labeled `Heading` has its first
data line consumed as column names.  First conjunct: an interior `Heading`
section is indeed parsed headerless (`header = none`) while the other
section consumes its header line.  Second conjunct: the same `Heading`
section moved to the end of the document is parsed *with* header inference —
its first data line `P1` becomes a column name — contradicting the claim. -/
theorem claim_c1_final_heading_flush :
    separate_tables [("[Heading]"), ("P1"), ("[Probes]"), ("Probe\tDef"), ("p\tf")] =
      Except.ok [(some headingLbl, ⟨none, [[("P1")]]⟩),
        (some ("Probes"), ⟨some [("Probe"), ("Def")], [[("p"), ("f")]]⟩)] ∧
    separate_tables [("[Probes]"), ("Probe\tDef"), ("p\tf"), ("[Heading]"), ("P1"), ("P2")] =
      Except.ok [(some ("Probes"), ⟨some [("Probe"), ("Def")], [[("p"), ("f")]]⟩),
        (some headingLbl, ⟨some [("P1")], [[("P2")]]⟩)] :=
  ⟨rfl, rfl⟩

/-- C5 (counterexample): the claim states that an input with no label line
yields an empty mapping without failing; in fact the unconditional
end-of-input flush calls `pd.read_csv` on the empty buffer, which raises
`EmptyDataError`. -/
theorem claim_c5_counterexample :
    separate_tables [("x")] = Except.error () := rfl

/-- C5 (amended): lines before any section label line are silently discarded
and appear in no output table — prepending non-label lines to any document
leaves the parse result unchanged; however, on an input consisting only of
non-label lines (in particular one with no label line at all) `split` raises
(the final flush parses an empty buffer) instead of returning an empty
mapping. -/
theorem claim_c5_preamble_discarded (pre rest : List String)
    (hpre : ∀ l ∈ pre, startsLb l = false) :
    separate_tables (pre ++ rest) = separate_tables rest ∧
    separate_tables pre = Except.error () := by
  have h0 := runLines_preamble pre hpre [] []
  constructor
  · unfold separate_tables
    rw [runLines_append pre rest ⟨[], none, []⟩, h0]
  · simp [separate_tables, h0, read_csv]

theorem claim_c5_witness :
    separate_tables (([("x")] : List String) ++ [("[A]"), ("B")]) =
      separate_tables [("[A]"), ("B")] ∧
    separate_tables [("x")] = Except.error () :=
  claim_c5_preamble_discarded [("x")] [("[A]"), ("B")] (by decide)

/-- C10: whenever a section label line is immediately followed by another
label line (a labeled section with zero content lines), `split` raises:
the flush of the empty buffer triggers pandas' `EmptyDataError`, so an empty
section is never represented as an entry of a returned mapping.  (The first
label must strip to a non-empty name; a bare `[]` label is falsy in Python
and is not flushed.) -/
theorem claim_c10_empty_section_raises (pre post : List String) (l1 l2 : String)
    (h1 : startsLb l1 = true) (h2 : startsLb l2 = true)
    (hk : stripBrk l1 ≠ "") :
    separate_tables (pre ++ l1 :: l2 :: post) = Except.error () := by
  unfold separate_tables
  rw [runLines_append pre (l1 :: l2 :: post) ⟨[], none, []⟩]
  cases hp : runLines ⟨[], none, []⟩ pre with
  | error e => rfl
  | ok st =>
    have hke : (stripBrk l1).isEmpty = false := by
      cases hie : (stripBrk l1).isEmpty
      · rfl
      · exact absurd ((String.isEmpty_iff _).mp hie) hk
    by_cases htr : truthy st.wk = true
    · cases hcsv : read_csv st.buf
        (if st.wk = some headingLbl then HMode.pos else HMode.infer) with
      | error e => simp [runLines, step, h1, htr, hcsv]
      | ok df =>
        have hstep1 : step st l1 =
            Except.ok ⟨dictInsert st.dfs st.wk df, some (stripBrk l1), []⟩ := by
          simp [step, h1, htr, hcsv]
        have hstep2 : step (⟨dictInsert st.dfs st.wk df, some (stripBrk l1), []⟩ : SplitSt) l2 =
            Except.error () := by
          simp [step, h2, truthy, hke, read_csv]
        simp [runLines, hstep1, hstep2]
    · have htr' : truthy st.wk = false := by simpa using htr
      have hstep1 : step st l1 = Except.ok ⟨st.dfs, some (stripBrk l1), []⟩ := by
        simp [step, h1, htr']
      have hstep2 : step (⟨st.dfs, some (stripBrk l1), []⟩ : SplitSt) l2 =
          Except.error () := by
        simp [step, h2, truthy, hke, read_csv]
      simp [runLines, hstep1, hstep2]

theorem claim_c10_witness :
    separate_tables (([] : List String) ++ ("[A]") :: ("[B]") :: []) =
      Except.error () :=
  claim_c10_empty_section_raises [] [] ("[A]") ("[B]") (by decide) (by decide)
    (by decide)

/-! ## Claim C3 — section-split completeness

A bracket-labeled block is a label line followed by its content lines.  The
well-formedness conditions are exactly what "bracket-labeled block" means in
the document format: the label line starts with `[` and strips to a
non-empty label, the content lines are not label lines, and the block has at
least one non-blank content line (a labeled block with no parseable content
makes the parser raise, claim C10).
-/

structure Block where
  lline : String
  content : List String
  deriving DecidableEq, Repr

def label (b : Block) : String := stripBrk b.lline

def BlockWF (b : Block) : Prop :=
  startsLb b.lline = true ∧ label b ≠ "" ∧
  (∀ l ∈ b.content, startsLb l = false) ∧ (∃ l ∈ b.content, !l.isEmpty)

instance (b : Block) : Decidable (BlockWF b) := by
  unfold BlockWF; infer_instance

/-- Concatenation of blocks into a document with no pre-label preamble. -/
def mkDoc : List Block → List String
  | [] => []
  | b :: bs => b.lline :: (b.content ++ mkDoc bs)

/-- Running the splitter over the concatenation of well-formed blocks from a
state holding an active non-empty key and a flushable buffer succeeds, and
the insertion order of the keys extends the accumulated one by the block
labels in document order (with the last pending section still in the
buffer). -/
theorem runBlocks (bs : List Block) :
    ∀ (d : Tables) (k : String) (buf : List String),
    (∀ b ∈ bs, BlockWF b) → k ≠ "" → (∃ l ∈ buf, !l.isEmpty) →
    (∀ x ∈ k :: bs.map label, some x ∉ d.map Prod.fst) →
    (k :: bs.map label).Nodup →
    ∃ dfs' kf bf,
      runLines ⟨d, some k, buf⟩ (mkDoc bs) = Except.ok ⟨dfs', some kf, bf⟩ ∧
      kf ≠ "" ∧ (∃ l ∈ bf, !l.isEmpty) ∧
      dfs'.map Prod.fst ++ [some kf] =
        d.map Prod.fst ++ (k :: bs.map label).map some ∧
      some kf ∉ dfs'.map Prod.fst := by
  induction bs with
  | nil =>
    intro d k buf _ hk hbuf hA _
    refine ⟨d, k, buf, rfl, hk, hbuf, by simp, ?_⟩
    exact hA k (List.mem_cons_self k [])
  | cons b bs ih =>
    intro d k buf hwf hk hbuf hA hnd
    obtain ⟨hlb, hlbl, hcnt, hcne⟩ := hwf b (List.mem_cons_self b bs)
    have htr : truthy (some k) = true := by
      have hke : k.isEmpty = false := by
        cases hie : k.isEmpty
        · rfl
        · exact absurd ((String.isEmpty_iff k).mp hie) hk
      simp [truthy, hke]
    obtain ⟨df, hdf⟩ := read_csv_ok buf hbuf
      (if k = headingLbl then HMode.pos else HMode.infer)
    have hkfresh : (some k : Option String) ∉ d.map Prod.fst :=
      hA k (List.mem_cons_self k _)
    have hstep : step ⟨d, some k, buf⟩ b.lline =
        Except.ok ⟨dictInsert d (some k) df, some (label b), []⟩ := by
      simp [step, hlb, htr, hdf, label]
    have hd2keys : (dictInsert d (some k) df).map Prod.fst =
        d.map Prod.fst ++ [some k] := dictInsert_map_fst d (some k) df hkfresh
    have hcontent := runLines_content b.content hcnt
      (dictInsert d (some k) df) (label b) hlbl []
    have hA2 : ∀ x ∈ label b :: bs.map label,
        some x ∉ (dictInsert d (some k) df).map Prod.fst := by
      intro x hx
      rw [hd2keys]
      intro hmem
      rcases List.mem_append.mp hmem with hmem1 | hmem2
      · exact hA x (List.mem_cons_of_mem k (by simpa using hx)) hmem1
      · have hxk : x = k := by simpa using hmem2
        have : k ∉ (b :: bs).map label := (List.nodup_cons.mp hnd).1
        exact this (by simpa [hxk] using hx)
    have hnd2 : (label b :: bs.map label).Nodup := by
      have : ((b :: bs).map label).Nodup := (List.nodup_cons.mp hnd).2
      simpa using this
    obtain ⟨dfs', kf, bf, hrun, hkf, hbf, hkeys, hfresh⟩ :=
      ih (dictInsert d (some k) df) (label b) b.content
        (fun x hx => hwf x (List.mem_cons_of_mem b hx)) hlbl hcne hA2 hnd2
    refine ⟨dfs', kf, bf, ?_, hkf, hbf, ?_, hfresh⟩
    · show runLines ⟨d, some k, buf⟩ (b.lline :: (b.content ++ mkDoc bs)) = _
      simp only [runLines, hstep]
      rw [runLines_append b.content (mkDoc bs) _]
      simp only [List.nil_append] at hcontent
      rw [hcontent]
      simpa using hrun
    · rw [hkeys, hd2keys]
      simp

/-- C3: for a document built by concatenating `N` well-formed
bracket-labeled blocks with pairwise distinct labels and no pre-label
preamble, `split` succeeds with exactly `N` entries whose insertion order
matches the label order in the input (so in particular the last block's
entry is present). -/
theorem claim_c3_split_completeness (bs : List Block) (hne : bs ≠ [])
    (hwf : ∀ b ∈ bs, BlockWF b) (hnd : (bs.map label).Nodup) :
    ∃ ts : Tables, separate_tables (mkDoc bs) = Except.ok ts ∧
      ts.map Prod.fst = bs.map (fun b => some (label b)) ∧
      ts.length = bs.length := by
  cases bs with
  | nil => exact absurd rfl hne
  | cons b bs =>
    obtain ⟨hlb, hlbl, hcnt, hcne⟩ := hwf b (List.mem_cons_self b bs)
    have hstep0 : step ⟨[], none, []⟩ b.lline =
        Except.ok ⟨[], some (label b), []⟩ := by
      simp [step, hlb, truthy, label]
    have hcontent := runLines_content b.content hcnt [] (label b) hlbl []
    have hnd' : (label b :: bs.map label).Nodup := by simpa using hnd
    obtain ⟨dfs', kf, bf, hrun, hkf, hbf, hkeys, hfresh⟩ :=
      runBlocks bs [] (label b) b.content
        (fun x hx => hwf x (List.mem_cons_of_mem b hx)) hlbl hcne
        (by intro x _ h; simp at h) hnd'
    obtain ⟨df, hdf⟩ := read_csv_ok bf hbf HMode.infer
    refine ⟨dictInsert dfs' (some kf) df, ?_, ?_, ?_⟩
    · show (match runLines ⟨[], none, []⟩ (b.lline :: (b.content ++ mkDoc bs)) with
          | Except.error e => Except.error e
          | Except.ok st =>
            match read_csv st.buf HMode.infer with
            | Except.error e => Except.error e
            | Except.ok df => Except.ok (dictInsert st.dfs st.wk df)) = _
      simp only [runLines, hstep0]
      rw [runLines_append b.content (mkDoc bs) _]
      simp only [List.nil_append] at hcontent
      rw [hcontent]
      simp only [hrun]
      simp [hdf]
    · rw [dictInsert_map_fst dfs' (some kf) df hfresh, hkeys]
      simp
    · have hlen := congrArg List.length
        (dictInsert_map_fst dfs' (some kf) df hfresh)
      have hlen2 := congrArg List.length hkeys
      simp at hlen hlen2
      have : dfs'.length + 1 = (b :: bs).length := by
        simpa using hlen2
      simpa [hlen] using this

theorem claim_c3_witness :
    ∃ ts : Tables,
      separate_tables (mkDoc [⟨("[Heading]"), [("P1")]⟩, ⟨("[Probes]"), [("a\tb")]⟩]) =
        Except.ok ts ∧
      ts.map Prod.fst =
        ([⟨("[Heading]"), [("P1")]⟩, ⟨("[Probes]"), [("a\tb")]⟩] : List Block).map
          (fun b => some (label b)) ∧
      ts.length = ([⟨("[Heading]"), [("P1")]⟩, ⟨("[Probes]"), [("a\tb")]⟩] : List Block).length :=
  claim_c3_split_completeness
    [⟨("[Heading]"), [("P1")]⟩, ⟨("[Probes]"), [("a\tb")]⟩]
    (by decide) (by decide) (by decide)

/-! ## Claims C6, C8 — the column projector -/

/-- Dropping from already-dropped columns removes nothing further (row
level). -/
theorem dropRow_idem (D : List String) :
    ∀ (hs r : List String),
      dropRow D (hs.filter (keepCol D)) (dropRow D hs r) = dropRow D hs r := by
  intro hs
  induction hs with
  | nil => intro r; rfl
  | cons h hs ih =>
    intro r
    cases r with
    | nil => simp [dropRow]
    | cons v r =>
      by_cases hkeep : keepCol D h = true
      · have hfil : (h :: hs).filter (keepCol D) = h :: hs.filter (keepCol D) := by
          simp [List.filter_cons, hkeep]
        have h2 : dropRow D (h :: hs) (v :: r) = v :: dropRow D hs r := by
          simp [dropRow, List.filter_cons, hkeep]
        have h3 : dropRow D (h :: hs.filter (keepCol D)) (v :: dropRow D hs r) =
            v :: dropRow D (hs.filter (keepCol D)) (dropRow D hs r) := by
          simp [dropRow, List.filter_cons, hkeep]
        rw [hfil, h2, h3, ih r]
      · have hkeep' : keepCol D h = false := by simpa using hkeep
        have hfil : (h :: hs).filter (keepCol D) = hs.filter (keepCol D) := by
          simp [List.filter_cons, hkeep']
        have h2 : dropRow D (h :: hs) (v :: r) = dropRow D hs r := by
          simp [dropRow, List.filter_cons, hkeep']
        rw [hfil, h2, ih r]

/-- Dropping names absent from the header leaves a (non-ragged) row
unchanged. -/
theorem dropRow_noop (D : List String) :
    ∀ (hs r : List String), (∀ c ∈ hs, c ∉ D) → r.length ≤ hs.length →
      dropRow D hs r = r := by
  intro hs
  induction hs with
  | nil =>
    intro r _ hlen
    have : r = [] := List.eq_nil_of_length_eq_zero (Nat.le_zero.mp hlen)
    simp [this, dropRow]
  | cons h hs ih =>
    intro r hdisj hlen
    cases r with
    | nil => simp [dropRow]
    | cons v r =>
      have hkeep : keepCol D h = true := by
        simp [keepCol]
        exact hdisj h (List.mem_cons_self h hs)
      simp only [dropRow, List.zip_cons_cons, List.filter_cons, hkeep,
        List.map_cons]
      have := ih r (fun c hc => hdisj c (List.mem_cons_of_mem h hc))
        (Nat.le_of_succ_le_succ (by simpa using hlen))
      simpa [dropRow] using this

/-- C6: projection returns a table with exactly the original columns not in
the drop list, in original order, with the same number of rows; on the
spec's example shape — columns `A, B, C` with arbitrary rows and drop set
`{B, D}` — the result has columns `A, C` and every row keeps exactly its
first and third value, in order, so row contents and order are unchanged;
the absent name `D` is ignored without error. -/
theorem claim_c6_projection (D hs : List String) (df : DF)
    (rows3 : List (String × String × String)) (hh : df.header = some hs) :
    ((dropColumns df D).rows.length = df.rows.length) ∧
    ((dropColumns df D).header = some (hs.filter (keepCol D))) ∧
    (dropColumns ⟨some [("A"), ("B"), ("C")], rows3.map (fun t => [t.1, t.2.1, t.2.2])⟩
        [("B"), ("D")] =
      ⟨some [("A"), ("C")], rows3.map (fun t => [t.1, t.2.2])⟩) := by
  refine ⟨?_, ?_, ?_⟩
  · simp [dropColumns, hh]
  · simp [dropColumns, hh]
  · simp only [dropColumns, List.map_map, DF.mk.injEq, Option.some.injEq]
    refine ⟨by simp [keepCol], ?_⟩
    refine List.map_congr_left ?_
    intro t _
    simp [Function.comp, dropRow, keepCol]

theorem claim_c6_witness :
    ((dropColumns ⟨some [("A")], [[("x")]]⟩ [("B")]).rows.length =
      (⟨some [("A")], [[("x")]]⟩ : DF).rows.length) ∧
    ((dropColumns ⟨some [("A")], [[("x")]]⟩ [("B")]).header =
      some (([("A")] : List String).filter (keepCol [("B")]))) ∧
    (dropColumns ⟨some [("A"), ("B"), ("C")],
        ([((("a") : String), (("b") : String), (("c") : String))]).map
          (fun t => [t.1, t.2.1, t.2.2])⟩ [("B"), ("D")] =
      ⟨some [("A"), ("C")],
        ([((("a") : String), (("b") : String), (("c") : String))]).map
          (fun t => [t.1, t.2.2])⟩) :=
  claim_c6_projection [("B")] [("A")] ⟨some [("A")], [[("x")]]⟩
    [((("a") : String), (("b") : String), (("c") : String))] rfl

/-- C8: projection is idempotent for every table and drop set; and when the
table has a header none of whose names is in the drop set (and its rows are
not ragged beyond the header, as for any dataframe), the projection is the
identity. -/
theorem claim_c8_idempotent (df : DF) (D : List String) :
    dropColumns (dropColumns df D) D = dropColumns df D ∧
    ((∀ hs, df.header = some hs →
        (∀ r ∈ df.rows, r.length ≤ hs.length) ∧ (∀ c ∈ hs, c ∉ D)) →
      dropColumns df D = df) := by
  constructor
  · cases hdf : df.header with
    | none =>
      have : dropColumns df D = df := by simp [dropColumns, hdf]
      rw [this, this]
    | some hs =>
      cases df with
      | mk hdr rows =>
        simp only at hdf
        subst hdf
        simp only [dropColumns, List.map_map, DF.mk.injEq, Option.some.injEq]
        refine ⟨?_, ?_⟩
        · rw [List.filter_filter]
          simp
        · refine List.map_congr_left ?_
          intro r _
          exact dropRow_idem D hs r
  · intro hside
    cases hdf : df.header with
    | none => simp [dropColumns, hdf]
    | some hs =>
      obtain ⟨hlen, hdisj⟩ := hside hs hdf
      cases df with
      | mk hdr rows =>
        simp only at hdf
        subst hdf
        simp only [dropColumns, DF.mk.injEq, Option.some.injEq]
        refine ⟨?_, ?_⟩
        · rw [List.filter_eq_self.mpr]
          intro a ha
          simp only [keepCol, decide_eq_true_eq]
          exact hdisj a ha
        · have : ∀ r ∈ rows, dropRow D hs r = r := by
            intro r hr
            exact dropRow_noop D hs r hdisj (hlen r hr)
          calc rows.map (dropRow D hs) = rows.map id := List.map_congr_left
                (by intro r hr; simpa using this r hr)
            _ = rows := List.map_id rows

theorem claim_c8_witness :
    dropColumns (dropColumns ⟨some [("A"), ("B")], [[("x"), ("y")]]⟩ [("Z")]) [("Z")] =
      dropColumns ⟨some [("A"), ("B")], [[("x"), ("y")]]⟩ [("Z")] ∧
    ((∀ hs, (⟨some [("A"), ("B")], [[("x"), ("y")]]⟩ : DF).header = some hs →
        (∀ r ∈ (⟨some [("A"), ("B")], [[("x"), ("y")]]⟩ : DF).rows,
          r.length ≤ hs.length) ∧ (∀ c ∈ hs, c ∉ [("Z")])) →
      dropColumns ⟨some [("A"), ("B")], [[("x"), ("y")]]⟩ [("Z")] =
        ⟨some [("A"), ("B")], [[("x"), ("y")]]⟩) :=
  claim_c8_idempotent ⟨some [("A"), ("B")], [[("x"), ("y")]]⟩ [("Z")]

/-! ## Filesystem and executor lemmas -/

theorem samePath_iff (x : Entry) (d : List String) (p q : String) :
    samePath x d p q = true ↔ (x.dirs = d ∧ x.stem = p ∧ x.ext = q) := by
  simp [samePath]

theorem lookupFile_writeFile_same (fs : FS) (e : Entry) :
    lookupFile (writeFile fs e) e.dirs e.stem e.ext = some e.size := by
  have hp : samePath e e.dirs e.stem e.ext = true := by
    simp [samePath]
  unfold lookupFile writeFile
  rw [List.find?_cons_of_pos (p := fun x => samePath x e.dirs e.stem e.ext)
    (a := e) _ hp]
  rfl

/-- `DelTempFiles.run` always leaves a valid (non-empty) `done.txt`. -/
theorem doneValid_delRun (dest name : String) (fs : FS) :
    doneValid dest name (delRun dest name fs) = true := by
  have h : lookupFile (delRun dest name fs) [dest, name] doneStem extTxt =
      some 1 := lookupFile_writeFile_same _ _
  simp [doneValid, h]

/-- Every scheduled stage comes from the chain. -/
theorem toSchedule_subset (fs : FS) :
    ∀ (chain : List Stage) (s : Stage), s ∈ toSchedule fs chain → s ∈ chain := by
  intro chain
  induction chain with
  | nil => intro s h; simp [toSchedule] at h
  | cons c deps ih =>
    intro s h
    by_cases hc : c.complete fs = true
    · simp [toSchedule, hc] at h
    · simp only [toSchedule, hc, if_neg] at h
      simp at h
      rcases h with h | h
      · exact List.mem_cons_of_mem c (ih s h)
      · simp [h]

/-- When every scheduled run action reports success, the executed-stage list
is exactly the schedule. -/
theorem execStages_all_ran (ss : List Stage) :
    ∀ fs, (∀ s ∈ ss, ∀ g, (s.run g).2 = true) →
      (execStages fs ss).ran = ss.map Stage.name := by
  induction ss with
  | nil => intro fs _; rfl
  | cons s rest ih =>
    intro fs hall
    have hs := hall s (List.mem_cons_self s rest) fs
    cases hr : s.run fs with
    | mk fs' ok =>
      have hok : ok = true := by rw [hr] at hs; exact hs
      subst hok
      simp [execStages, hr, ih fs' (fun t ht g => hall t (List.mem_cons_of_mem s ht) g)]

/-- A path absent from the filesystem: no entry has it. -/
def PathAbsent (p : List String × String × String) (fs : FS) : Prop :=
  ∀ e ∈ fs, ¬(e.dirs = p.1 ∧ e.stem = p.2.1 ∧ e.ext = p.2.2)

/-- A stage never creates the path `p` (spec §5: each stage owns its output
paths exclusively, no two stages write the same path — so a path attributed
to one stage is preserved-absent by every other stage's run action). -/
def PreservesAbsent (u : Stage) (p : List String × String × String) : Prop :=
  ∀ g, PathAbsent p g → PathAbsent p (u.run g).1

/-- Anatomy of a failed execution: the schedule splits at the failing stage,
exactly the stages up to and including it were invoked, and any path that no
invoked stage can create is still absent at the end. -/
theorem execStages_fail (nm : String) :
    ∀ (ss : List Stage) (fs : FS),
    (execStages fs ss).failed = some nm →
    ∃ pre s post, ss = pre ++ s :: post ∧ s.name = nm ∧
      (execStages fs ss).ran = pre.map Stage.name ++ [nm] ∧
      ∀ p, PathAbsent p fs → (∀ u ∈ pre ++ [s], PreservesAbsent u p) →
        PathAbsent p (execStages fs ss).fs := by
  intro ss
  induction ss with
  | nil => intro fs h; simp [execStages] at h
  | cons s rest ih =>
    intro fs h
    cases hr : s.run fs with
    | mk fs' ok =>
      cases ok with
      | true =>
        have hfail : (execStages fs' rest).failed = some nm := by
          simpa [execStages, hr] using h
        obtain ⟨pre, t, post, hdec, hnm, hran, habs⟩ := ih fs' hfail
        refine ⟨s :: pre, t, post, by simp [hdec], hnm, ?_, ?_⟩
        · simp [execStages, hr, hran, hnm]
        · intro p hp hpres
          have hp' : PathAbsent p fs' := by
            have h2 := hpres s (List.mem_cons_self s _) fs hp
            rwa [hr] at h2
          have hrec := habs p hp' (fun u hu => hpres u (by
            rcases List.mem_append.mp hu with h1 | h1
            · exact List.mem_cons_of_mem s (List.mem_append.mpr (Or.inl h1))
            · exact List.mem_cons_of_mem s (List.mem_append.mpr (Or.inr h1))))
          simpa [execStages, hr] using hrec
      | false =>
        have hnm : s.name = nm := by
          simpa [execStages, hr] using h
        refine ⟨[], s, rest, rfl, hnm, ?_, ?_⟩
        · simp [execStages, hr, hnm]
        · intro p hp hpres
          have h2 := hpres s (List.mem_cons_self s _) fs hp
          rw [hr] at h2
          simpa [execStages, hr] using h2

/-! ## Claims C2, C4, C7, C9 — stages, cache and executor -/

/-- C2: the Extract stage is complete exactly when its sentinel
`{dest}/{name}/extracts.txt` exists with non-zero size; on a filesystem
where the sentinel is absent or empty (regardless of what else — e.g. the
extraction directory's files — exists) and the downstream stages are
incomplete, Extract is incomplete and its run action is executed again by
the next invocation of the executor. -/
theorem claim_c2_sentinel_cache (dest name : String)
    (pats : List (String × String)) (extracted fs : FS)
    (hsent : lookupFile fs [dest, name] extractsStem extTxt = none ∨
      lookupFile fs [dest, name] extractsStem extTxt = some 0)
    (hdone : doneValid dest name fs = false)
    (hprep : prepValid dest name pats fs = false) :
    (∀ g : FS, extractsValid dest name g = true ↔
      ∃ sz, lookupFile g [dest, name] extractsStem extTxt = some sz ∧ 0 < sz) ∧
    extractsValid dest name fs = false ∧
    nmExtract ∈ (luigiRun fs (pipelineChain dest name pats extracted)).ran := by
  have hexv : extractsValid dest name fs = false := by
    rcases hsent with h | h <;> simp [extractsValid, h]
  refine ⟨?_, hexv, ?_⟩
  · intro g
    cases h : lookupFile g [dest, name] extractsStem extTxt with
    | none => simp [extractsValid, h]
    | some sz => simp [extractsValid, h]
  · have hallrun : ∀ s ∈ pipelineChain dest name pats extracted,
        ∀ g, (s.run g).2 = true := by
      intro s hs g
      simp [pipelineChain] at hs
      rcases hs with h | h | h | h | h <;> subst h <;> rfl
    have hransched :
        (luigiRun fs (pipelineChain dest name pats extracted)).ran =
          (toSchedule fs (pipelineChain dest name pats extracted)).map Stage.name :=
      execStages_all_ran _ fs
        (fun s hs g => hallrun s (toSchedule_subset fs _ s hs) g)
    rw [hransched]
    simp [pipelineChain, toSchedule, hdone, hprep, hexv]

theorem claim_c2_witness :
    extractsValid ("data") ("G")
      [⟨[("data"), ("G"), ("f")], ("Probes"), (".tsv"), 1⟩] = false ∧
    nmExtract ∈ (luigiRun [⟨[("data"), ("G"), ("f")], ("Probes"), (".tsv"), 1⟩]
      (pipelineChain ("data") ("G") [((("Probes") : String), ((".tsv") : String))]
        [])).ran :=
  (claim_c2_sentinel_cache ("data") ("G")
    [((("Probes") : String), ((".tsv") : String))] []
    [⟨[("data"), ("G"), ("f")], ("Probes"), (".tsv"), 1⟩]
    (Or.inl rfl) rfl rfl).2

/-- C4: starting from the final state of a successful first run — a
filesystem just produced by the Cleanup stage's run action, whose non-empty
`done.txt` completion log makes the root of the requirement chain complete —
a second invocation of the executor with identical configuration schedules
nothing: it performs zero run actions, reports no failure, and leaves the
filesystem (hence every final artifact) identical. -/
theorem claim_c4_rerun_noop (dest name : String) (pats : List (String × String))
    (extracted : FS) (fs0 fs : FS) (h : fs = delRun dest name fs0) :
    luigiRun fs (pipelineChain dest name pats extracted) = ⟨fs, [], none⟩ := by
  subst h
  have hdone := doneValid_delRun dest name fs0
  simp [luigiRun, pipelineChain, toSchedule, hdone, execStages]

theorem claim_c4_witness :
    luigiRun (delRun ("d") ("n") []) (pipelineChain ("d") ("n") [] []) =
      ⟨delRun ("d") ("n") [], [], none⟩ :=
  claim_c4_rerun_noop ("d") ("n") [] [] [] (delRun ("d") ("n") []) rfl

/-- C7: if a scheduled stage's run action fails, the run stops immediately:
the executed stages are exactly the schedule prefix up to and including the
failing stage (no stage after it in the chain executes its run action), and
any path absent beforehand that only later stages could create — per spec
§5 each stage owns its output paths exclusively — is still absent on disk
afterwards. -/
theorem claim_c7_fail_fast (fs : FS) (chain : List Stage) (nm : String)
    (hfail : (luigiRun fs chain).failed = some nm) :
    ∃ pre s post, toSchedule fs chain = pre ++ s :: post ∧ s.name = nm ∧
      (luigiRun fs chain).ran = pre.map Stage.name ++ [nm] ∧
      ∀ p, PathAbsent p fs → (∀ u ∈ pre ++ [s], PreservesAbsent u p) →
        PathAbsent p (luigiRun fs chain).fs :=
  execStages_fail nm (toSchedule fs chain) fs hfail

def failStage : Stage := ⟨("s1"), fun _ => false, fun g => (g, false)⟩
def nextStage : Stage := ⟨("s2"), fun _ => false, fun g => (g, true)⟩

theorem claim_c7_witness :
    ∃ pre s post,
      toSchedule [] [nextStage, failStage] = pre ++ s :: post ∧
      s.name = ("s1") ∧
      (luigiRun [] [nextStage, failStage]).ran = pre.map Stage.name ++ [("s1")] ∧
      ∀ p, PathAbsent p [] → (∀ u ∈ pre ++ [s], PreservesAbsent u p) →
        PathAbsent p (luigiRun [] [nextStage, failStage]).fs :=
  claim_c7_fail_fast [] [nextStage, failStage] ("s1") rfl

/-- C9: after `DelTempFiles.run`, the only `.txt` file under the dataset
directory is the top-level `done.txt` completion log it wrote last (with
non-zero size); in particular the Extract stage's declared output artifact
`extracts.txt` no longer exists — the recursive `*.txt` deletion pass
includes the Extract sentinel, and `done.txt` survives only because it is
written after the deletion pass. -/
theorem claim_c9_cleanup_deletes_sentinel (dest name : String) (fs : FS)
    (e : Entry) (he : e ∈ delRun dest name fs)
    (hds : e.dirs.take 2 = [dest, name]) (htxt : e.ext = extTxt) :
    (e.dirs = [dest, name] ∧ e.stem = doneStem ∧ e.size = 1) ∧
    lookupFile (delRun dest name fs) [dest, name] extractsStem extTxt = none ∧
    (∃ sz, lookupFile (delRun dest name fs) [dest, name] doneStem extTxt =
      some sz ∧ 0 < sz) := by
  have hunder : ∀ x : Entry, x.dirs = [dest, name] → underDs dest name x = true := by
    intro x hx
    simp [underDs, hx]
  refine ⟨?_, ?_, ?_⟩
  · have he' : e = (⟨[dest, name], doneStem, extTxt, 1⟩ : Entry) ∨
        e ∈ ((removeFile fs [dest] name extTar).filter
          (fun x => !(underDs dest name x && decide (x.ext = extTxt)))).filter
          (fun x => !samePath x [dest, name] doneStem extTxt) := by
      simpa [delRun, writeFile] using he
    rcases he' with heq | hmem
    · simp [heq]
    · exfalso
      have h1 := (List.mem_filter.mp hmem).1
      have h2 := (List.mem_filter.mp h1).2
      have h3 : underDs dest name e = true := by simp [underDs, hds]
      simp [h3, htxt] at h2
  · have hnone : ∀ x ∈ delRun dest name fs,
        ¬(samePath x [dest, name] extractsStem extTxt = true) := by
      intro x hx
      have hx' : x = (⟨[dest, name], doneStem, extTxt, 1⟩ : Entry) ∨
          x ∈ ((removeFile fs [dest] name extTar).filter
            (fun y => !(underDs dest name y && decide (y.ext = extTxt)))).filter
            (fun y => !samePath y [dest, name] doneStem extTxt) := by
        simpa [delRun, writeFile] using hx
      intro hsame
      obtain ⟨hxd, hxs, hxe⟩ := (samePath_iff x _ _ _).mp hsame
      rcases hx' with heq | hmem
      · rw [heq] at hxs
        exact absurd hxs (show doneStem ≠ extractsStem by decide)
      · have h1 := (List.mem_filter.mp hmem).1
        have h2 := (List.mem_filter.mp h1).2
        have h3 : underDs dest name x = true := by
          apply hunder x hxd
        simp [h3, hxe] at h2
    have : (delRun dest name fs).find?
        (fun x => samePath x [dest, name] extractsStem extTxt) = none :=
      List.find?_eq_none.mpr hnone
    simp [lookupFile, this]
  · have h := lookupFile_writeFile_same
      ((removeFile fs [dest] name extTar).filter
        (fun x => !(underDs dest name x && decide (x.ext = extTxt))))
      ⟨[dest, name], doneStem, extTxt, 1⟩
    refine ⟨1, ?_, Nat.one_pos⟩
    simpa [delRun] using h

theorem claim_c9_witness :
    ((⟨[("data"), ("G")], doneStem, extTxt, 1⟩ : Entry).dirs = [("data"), ("G")] ∧
      (⟨[("data"), ("G")], doneStem, extTxt, 1⟩ : Entry).stem = doneStem ∧
      (⟨[("data"), ("G")], doneStem, extTxt, 1⟩ : Entry).size = 1) ∧
    lookupFile (delRun ("data") ("G")
        [⟨[("data"), ("G")], extractsStem, extTxt, 1⟩])
      [("data"), ("G")] extractsStem extTxt = none ∧
    (∃ sz, lookupFile (delRun ("data") ("G")
        [⟨[("data"), ("G")], extractsStem, extTxt, 1⟩])
      [("data"), ("G")] doneStem extTxt = some sz ∧ 0 < sz) :=
  claim_c9_cleanup_deletes_sentinel ("data") ("G")
    [⟨[("data"), ("G")], extractsStem, extTxt, 1⟩]
    ⟨[("data"), ("G")], doneStem, extTxt, 1⟩
    (by decide) rfl rfl

end LuigiPipeline
